import Mathlib

/-!
Verification of the file-selection and chunk-distribution engine of the
`agg-files` repository (`src/file_processor.rs`, `src/pattern_matcher.rs`,
`src/ignore_files_helper.rs`, `src/cli.rs`).

Paths are modelled as lists of components (`PathT`), mirroring how
`PathBuf` compares and iterates by components.  The filesystem, the
directory walker and the compiled rule sources of the external `ignore`
crate are modelled as oracles in the `Fs` structure; everything the
repository's own code does with their results is translated directly
from the Rust source.  The external `regex` crate is modelled for the
syntax fragment that `glob_to_regex` emits: literal characters, the
escape `\.`, the any-character `.`, postfix `*`, grouping with
alternation `(a|b)`, and a trailing end-of-text anchor `$`; any other
construct is treated as a compile failure.
-/

/-- A path, as the list of its components (`PathBuf::components`). -/
abbrev PathT := List String

/-- Regular-expression abstract syntax for the fragment emitted by
`glob_to_regex`. -/
inductive Reg where
  | emp : Reg
  | eps : Reg
  | char : Char → Reg
  | any : Reg
  | seq : Reg → Reg → Reg
  | alt : Reg → Reg → Reg
  | star : Reg → Reg
deriving DecidableEq

/-- Does the regular expression accept the empty word? -/
def nullable : Reg → Bool
  | .emp => false
  | .eps => true
  | .char _ => false
  | .any => false
  | .seq r s => nullable r && nullable s
  | .alt r s => nullable r || nullable s
  | .star _ => true

/-- Brzozowski derivative of a regular expression by one character. -/
def rderiv : Reg → Char → Reg
  | .emp, _ => .emp
  | .eps, _ => .emp
  | .char c, d => if c = d then .eps else .emp
  | .any, _ => .eps
  | .seq r s, d =>
      if nullable r then .alt (.seq (rderiv r d) s) (rderiv s d)
      else .seq (rderiv r d) s
  | .alt r s, d => .alt (rderiv r d) (rderiv s d)
  | .star r, d => .seq (rderiv r d) (.star r)

/-- Whole-word acceptance via iterated derivatives. -/
def fullMatch (r : Reg) (cs : List Char) : Bool :=
  nullable (cs.foldl rderiv r)

/-- A compiled regular expression: parsed body plus whether the source
regex ended in the `$` end-of-text anchor. -/
structure Regex where
  body : Reg
  endAnch : Bool
deriving DecidableEq

/-- Characters that the modelled regex fragment does not accept as plain
literals. -/
def regexMeta (c : Char) : Bool :=
  c ∈ [')', '|', '*', '$', '+', '?', '[', ']', '^', '\x7b', '\x7d', '(', '.', '\\']

/-- Parsing modes of the recursive-descent regex reader: alternation,
concatenation, repetition, atom. -/
inductive PMode where
  | palt : PMode
  | pcat : PMode
  | prep : PMode
  | patom : PMode

/-- Fuel-indexed recursive-descent reader for the modelled regex
fragment: alternation of concatenations of optionally-starred atoms,
atoms being literals, `\.`, `.`, or parenthesised groups. -/
def parseR : Nat → PMode → List Char → Option (Reg × List Char)
  | 0, _, _ => none
  | f+1, .palt, cs =>
    match parseR f .pcat cs with
    | some (r, '|' :: rest2) =>
      match parseR f .palt rest2 with
      | some (r2, rest3) => some (.alt r r2, rest3)
      | none => none
    | some (r, rest) => some (r, rest)
    | none => none
  | f+1, .pcat, cs =>
    match cs with
    | [] => some (.eps, [])
    | c :: _ =>
      if c = ')' || c = '|' then some (.eps, cs)
      else
        match parseR f .prep cs with
        | some (r, rest) =>
          match parseR f .pcat rest with
          | some (r2, rest2) => some (.seq r r2, rest2)
          | none => none
        | none => none
  | f+1, .prep, cs =>
    match parseR f .patom cs with
    | some (r, '*' :: rest) => some (.star r, rest)
    | some (r, rest) => some (r, rest)
    | none => none
  | f+1, .patom, cs =>
    match cs with
    | [] => none
    | '(' :: rest =>
      match parseR f .palt rest with
      | some (r, ')' :: rest2) => some (r, rest2)
      | _ => none
    | '\\' :: rest =>
      match rest with
      | '.' :: rest2 => some (.char ('.'), rest2)
      | _ => none
    | '.' :: rest => some (.any, rest)
    | c :: rest => if regexMeta c then none else some (.char c, rest)

/-- Model of `Regex::new` of the `regex` crate on the emitted fragment:
`none` is a compile error.  A trailing `$` is recorded as an end-of-text
anchor. -/
def rustRegexCompile (cs : List Char) : Option Regex :=
  let p :=
    match cs.getLast? with
    | some ('$') => (cs.dropLast, true)
    | _ => (cs, false)
  match parseR (4 * p.1.length + 8) .palt p.1 with
  | some (r, []) => some ⟨r, p.2⟩
  | _ => none

/-- Model of `Regex::is_match`: unanchored search, except that an
end-anchored regex must match a suffix reaching the end of the
haystack. -/
def Regex.isMatch (re : Regex) (s : String) : Bool :=
  let cs := s.toList
  (List.range (cs.length + 1)).any fun i =>
    let t := List.drop i cs
    if re.endAnch then fullMatch re.body t
    else (List.range (t.length + 1)).any fun j => fullMatch re.body (t.take j)

/-- `str::replace` for a single-character needle (every call in
`glob_to_regex` replaces a single-character string; replacements are not
rescanned, exactly as in Rust). -/
def replaceChar (c : Char) (rep : List Char) (cs : List Char) : List Char :=
  cs.flatMap (fun d => if d = c then rep else [d])

/-- The string-rewriting part of `PatternMatcher::glob_to_regex`:
escape `.`, turn `*` into `.*`, braces into parentheses, commas into
alternation, and strip spaces, in the source's order. -/
def glob_to_regex_str (p : List Char) : List Char :=
  let s1 := replaceChar ('.') ['\\', '.'] p
  let s2 := replaceChar ('*') ['.', '*'] s1
  let s3 := replaceChar ('\x7b') ['('] s2
  let s4 := replaceChar ('\x7d') [')'] s3
  let s5 := replaceChar (',') ['|'] s4
  replaceChar (' ') [] s5

/-- `PatternMatcher::glob_to_regex`: compile `.*{translated}$`.  The
source calls `.unwrap()` on the compile result, so a compile failure is
a panic that aborts the run; `none` models that panic. -/
def glob_to_regex (p : String) : Option Regex :=
  rustRegexCompile (['.', '*'] ++ glob_to_regex_str p.toList ++ ['$'])

/-- Split a character list at every occurrence of `c` (used to model
`str::lines` and path parsing). -/
def splitChar (c : Char) : List Char → List (List Char)
  | [] => [[]]
  | d :: ds =>
    if d = c then [] :: splitChar c ds
    else
      match splitChar c ds with
      | h :: t => (d :: h) :: t
      | [] => [[d]]

/-- Model of `content.lines().count()`: newline-separated segments, a
trailing newline producing no extra empty line. -/
def rustLineCount (cs : List Char) : Nat :=
  let parts := splitChar ('\n') cs
  match parts.getLast? with
  | some last => if last = [] then parts.length - 1 else parts.length
  | none => 0

/-- The two compiled rule sources held by `IgnoreFilesHelper`
(`gitignore` and `custom_ignore`); each compiled matcher of the external
`ignore` crate is an oracle predicate (already including the
`is_dir` argument the source passes). -/
structure IgnoreFilesHelper where
  gitignore : Option (PathT → Bool)
  custom_ignore : Option (PathT → Bool)

/-- `IgnoreFilesHelper::is_ignored`: the custom source is consulted
first, then the gitignore source; a missing source never ignores. -/
def IgnoreFilesHelper.is_ignored (h : IgnoreFilesHelper) (p : PathT) : Bool :=
  (match h.custom_ignore with
   | some ci => ci p
   | none => false) ||
  (match h.gitignore with
   | some gi => gi p
   | none => false)

/-- The fragment of `FileProcessor::new` that decides whether an
`IgnoreFilesHelper` is constructed at all: only when neither override
flag is set. -/
def newIgnoreHelper (ignore_gitignore ignore_custom : Bool)
    (d : IgnoreFilesHelper) : Option IgnoreFilesHelper :=
  if !ignore_gitignore && !ignore_custom then some d else none

/-- The ignore test as used inside the traversal closures: a missing
helper ignores nothing. -/
def effIgnored : Option IgnoreFilesHelper → PathT → Bool
  | some ih, p => ih.is_ignored p
  | none, _ => false

/-- Filesystem / walker / rule-source snapshot consumed by one run.
`walkWorking` is the entry stream of `create_walker` (indexed by the
recursive flag), `walkDir` that of `WalkDir::new(dir)`; `meta` is
`fs::metadata(..).len()`, `bytes` is `fs::read`, `text` is
`fs::read_to_string`, and `ignoreData` is what
`IgnoreFilesHelper::new()` compiles from the rule files on disk. -/
structure Fs where
  pathExists : PathT → Bool
  isDir : PathT → Bool
  isFile : PathT → Bool
  walkWorking : Bool → List PathT
  walkDir : PathT → List PathT
  meta : PathT → Option Nat
  bytes : PathT → Option (List Nat)
  text : PathT → Option (List Char)
  ignoreData : IgnoreFilesHelper

/-- The caller-configured options the modelled engine reads
(`CliArgs` fields used by collection). -/
structure SimArgs where
  recursive : Bool
  ignore_gitignore : Bool
  ignore_custom : Bool
  patterns : List String
  max_lines : Option Nat

/-- `FileProcessor::is_binary_file`: a file over 1,000,000 bytes is
binary without its content being read; otherwise the first
`min 1024 len` read bytes are scanned for a null byte; unreadable
metadata or content yields `false`. -/
def is_binary_file (fs : Fs) (p : PathT) : Bool :=
  match fs.meta p with
  | some len =>
    if 1000000 < len then true
    else
      match fs.bytes p with
      | some content =>
        let check_size := min 1024 content.length
        (content.take check_size).contains 0
      | none => false
  | none => false

/-- Error kinds distinguished by `should_include_file`. -/
inductive IoErrorKind where
  | invalidData : IoErrorKind
  | other : IoErrorKind
deriving DecidableEq

/-- `FileProcessor::count_lines`: binary detection first, then the line
count of the decoded text. -/
def count_lines (fs : Fs) (p : PathT) : Except IoErrorKind Nat :=
  if is_binary_file fs p then .error .invalidData
  else
    match fs.text p with
    | some content => .ok (rustLineCount content)
    | none => .error .other

/-- `FileProcessor::should_include_file`: with no `max_lines` configured
the file is always included; otherwise a failed or binary line count or
a count above the ceiling excludes it. -/
def should_include_file (max_lines : Option Nat) (fs : Fs) (p : PathT) : Bool :=
  match max_lines with
  | some maxL =>
    match count_lines fs p with
    | .ok line_count => !(maxL < line_count)
    | .error _ => false
  | none => true

/-- The `should_process` closure shared by both traversal functions: no
`.git` path component, and not ignored by the helper when present. -/
def should_process (helper : Option IgnoreFilesHelper) (p : PathT) : Bool :=
  !(p.contains ".git") && !(effIgnored helper p)

/-- The walker pipeline of both collectors: `filter_entry` with
`should_process`, then keep regular files. -/
def walkFiles (fs : Fs) (helper : Option IgnoreFilesHelper)
    (raw : List PathT) : List PathT :=
  (raw.filter (fun p => should_process helper p)).filter fs.isFile

/-- The mutable collection state of `FileProcessor`: the accumulated
`files` vector and the `processed_files` / `ignored_files` hash sets
(sets modelled as duplicate-free insertion lists). -/
structure CState where
  files : List PathT
  processed_files : List PathT
  ignored_files : List PathT
deriving DecidableEq

/-- `HashSet::insert`. -/
def insertSet (l : List PathT) (p : PathT) : List PathT :=
  if p ∈ l then l else l ++ [p]

/-- The shared per-entry body of both traversal loops: an entry passing
the condition is recorded as processed and pushed onto `files`, any
other entry is recorded as ignored. -/
def condStep (cond : PathT → Bool) (st : CState) (p : PathT) : CState :=
  if cond p then
    { st with processed_files := insertSet st.processed_files p,
              files := st.files ++ [p] }
  else
    { st with ignored_files := insertSet st.ignored_files p }

/-- `FileProcessor::collect_from_glob_pattern`; `none` models the panic
of `glob_to_regex`'s `.unwrap()` on an uncompilable pattern. -/
def collect_from_glob_pattern (fs : Fs) (args : SimArgs)
    (helper : Option IgnoreFilesHelper) (pat : String) (st : CState) :
    Option CState :=
  match glob_to_regex pat with
  | none => none
  | some re =>
    some ((walkFiles fs helper (fs.walkWorking args.recursive)).foldl
      (condStep (fun p =>
        re.isMatch (String.intercalate ("/") p) &&
        should_include_file args.max_lines fs p)) st)

/-- `FileProcessor::collect_from_directory`. -/
def collect_from_directory (fs : Fs) (args : SimArgs)
    (helper : Option IgnoreFilesHelper) (dir : PathT) (st : CState) :
    CState :=
  (walkFiles fs helper (fs.walkDir dir)).foldl
    (condStep (fun p => should_include_file args.max_lines fs p)) st

/-- `Path::new(&pattern)` as a component list. -/
def parsePath (s : String) : PathT :=
  (splitChar ('/') s.toList).map (fun cs => String.mk cs)

/-- One iteration of the pattern loop in `collect_files`. -/
def collectOne (fs : Fs) (args : SimArgs)
    (helper : Option IgnoreFilesHelper) (st : CState) (pat : String) :
    Option CState :=
  let path := parsePath pat
  if fs.pathExists path then
    if fs.isDir path then some (collect_from_directory fs args helper path st)
    else some { st with files := st.files ++ [path] }
  else collect_from_glob_pattern fs args helper pat st

/-- The pattern loop of `collect_files` (aborting on a pattern whose
regex fails to compile, as the source's unwrap does). -/
def collectLoop (fs : Fs) (args : SimArgs)
    (helper : Option IgnoreFilesHelper) :
    List String → CState → Option CState
  | [], st => some st
  | pat :: rest, st =>
    match collectOne fs args helper st pat with
    | some st2 => collectLoop fs args helper rest st2
    | none => none

/-- `PathBuf` comparison (component-wise lexicographic), as a boolean
less-or-equal. -/
def pathLeB : PathT → PathT → Bool
  | [], _ => true
  | _ :: _, [] => false
  | a :: as, b :: bs =>
    if a < b then true
    else if b < a then false
    else pathLeB as bs

/-- Stable insertion into a `pathLeB`-sorted list. -/
def insertSorted (x : PathT) : List PathT → List PathT
  | [] => [x]
  | y :: ys => if pathLeB x y then x :: y :: ys else y :: insertSorted x ys

/-- `Vec::sort` on paths (extensionally: any comparison sort agrees on
lists whose equal elements are identical). -/
def rustSort : List PathT → List PathT
  | [] => []
  | x :: xs => insertSorted x (rustSort xs)

/-- `Vec::dedup`: collapse runs of adjacent equal elements. -/
def dedupAdj : List PathT → List PathT
  | [] => []
  | [x] => [x]
  | x :: y :: rest =>
    if x = y then dedupAdj (y :: rest) else x :: dedupAdj (y :: rest)

/-- `FileProcessor::collect_files`: run every pattern, then sort and
dedup the accumulated file list into `files_to_process`. -/
def collect_files (args : SimArgs) (fs : Fs) : Option CState :=
  let helper := newIgnoreHelper args.ignore_gitignore args.ignore_custom
    fs.ignoreData
  match collectLoop fs args helper args.patterns ⟨[], [], []⟩ with
  | some st => some { st with files := dedupAdj (rustSort st.files) }
  | none => none

/-- The accumulator of Rust's `Iterator::min_by_key` over
`chunk_sizes.iter().enumerate()`: keep the earlier element unless a
strictly smaller key appears. -/
def minIdxAux : Nat → Nat → Nat → List Nat → Nat
  | bi, _, _, [] => bi
  | bi, bv, i, x :: xs =>
    if x < bv then minIdxAux i x (i+1) xs else minIdxAux bi bv (i+1) xs

/-- The `smallest_chunk_index` computation of `distribute_files`:
`min_by_key` over the enumerated running totals, `unwrap_or(0)`. -/
def minIdx : List Nat → Nat
  | [] => 0
  | x :: xs => minIdxAux 0 x 1 xs

/-- Fold of `Nat.min` with an initial value. -/
def foldMin (xs : List Nat) (a : Nat) : Nat :=
  xs.foldl Nat.min a

/-- The smallest running total of a non-empty list (0 for the empty
list). -/
def listMin : List Nat → Nat
  | [] => 0
  | x :: xs => foldMin xs x

/-- Reference index choice, in the spec's words: the lowest chunk index
whose running total equals the smallest running total. -/
def leastLoadedIdx (totals : List Nat) : Nat :=
  totals.findIdx (fun t => t == listMin totals)

/-- Stable insertion for the descending-size order of
`sort_by(|a, b| b.1.cmp(&a.1))`: an element moves left only past
strictly smaller sizes. -/
def insertDesc (x : PathT × Nat) : List (PathT × Nat) → List (PathT × Nat)
  | [] => [x]
  | y :: ys => if y.2 ≤ x.2 then x :: y :: ys else y :: insertDesc x ys

/-- The stable descending-size sort used by `distribute_files`. -/
def sortDesc : List (PathT × Nat) → List (PathT × Nat)
  | [] => []
  | x :: xs => insertDesc x (sortDesc xs)

/-- Apply a function at one list index (`result[i].push` /
`chunk_sizes[i] += size`). -/
def modifyAt (g : α → α) : Nat → List α → List α
  | _, [] => []
  | 0, x :: xs => g x :: xs
  | n+1, x :: xs => x :: modifyAt g n xs

/-- The assignment loop of `distribute_files`: each file in turn goes to
the chunk at `minIdx` of the running totals, whose total then grows by
the file's size. -/
def assignLoop : List (PathT × Nat) → List (List PathT) → List Nat →
    List (List PathT) × List Nat
  | [], res, sizes => (res, sizes)
  | (f, s) :: rest, res, sizes =>
    let i := minIdx sizes
    assignLoop rest (modifyAt (fun c => c ++ [f]) i res)
      (modifyAt (fun t => t + s) i sizes)

/-- The same loop with the index chosen by the spec's description
(`leastLoadedIdx`), for the refinement proof. -/
def refAssign : List (PathT × Nat) → List (List PathT) → List Nat →
    List (List PathT) × List Nat
  | [], res, sizes => (res, sizes)
  | (f, s) :: rest, res, sizes =>
    let i := leastLoadedIdx sizes
    refAssign rest (modifyAt (fun c => c ++ [f]) i res)
      (modifyAt (fun t => t + s) i sizes)

/-- `FileProcessor::distribute_files` on the collected candidate list:
no requested chunk count, a zero count or an empty candidate list yield
one chunk holding the whole list; otherwise files whose metadata
resolves are sorted by size descending, greedily assigned, and empty
chunks are dropped. -/
def distribute_files (files : List PathT) (split_chunks : Option Nat)
    (sizeOf : PathT → Option Nat) : List (List PathT) :=
  match split_chunks with
  | some chunks =>
    if chunks = 0 ∨ files = [] then [files]
    else
      let files_with_sizes :=
        files.filterMap (fun f => (sizeOf f).map (fun s => (f, s)))
      let sorted := sortDesc files_with_sizes
      let res := (assignLoop sorted (List.replicate chunks [])
        (List.replicate chunks 0)).1
      res.filter (fun c => !c.isEmpty)
  | none => [files]

/-- The distribution pipeline written from the spec's description of the
greedy reference algorithm (differing from `distribute_files` only in
how the least-loaded chunk index is phrased). -/
def specDistribute (files : List PathT) (split_chunks : Option Nat)
    (sizeOf : PathT → Option Nat) : List (List PathT) :=
  match split_chunks with
  | some chunks =>
    if chunks = 0 ∨ files = [] then [files]
    else
      let files_with_sizes :=
        files.filterMap (fun f => (sizeOf f).map (fun s => (f, s)))
      let sorted := sortDesc files_with_sizes
      let res := (refAssign sorted (List.replicate chunks [])
        (List.replicate chunks 0)).1
      res.filter (fun c => !c.isEmpty)
  | none => [files]

/-- A size oracle on which every metadata read fails. -/
def sizeNoneFn : PathT → Option Nat := fun _ => none

/-- Three candidate files for exercising the distribution. -/
def filesW1 : List PathT := [["a"], ["b"], ["c"]]

/-- A size oracle resolving every file of `filesW1`. -/
def sizeW1 : PathT → Option Nat :=
  fun p => some (if p == (["a"] : PathT) then 5 else 3)

/-- Options for a directory run with no `max_lines` ceiling. -/
def args3 : SimArgs :=
  { recursive := false, ignore_gitignore := false, ignore_custom := false,
    patterns := ["d"], max_lines := none }

/-- A snapshot holding one directory `d` with one small file `d/c.bin`
whose very first byte read is a null byte. -/
def fs3 : Fs :=
  { pathExists := fun p => p == (["d"] : PathT)
    isDir := fun p => p == (["d"] : PathT)
    isFile := fun p => p == (["d", "c.bin"] : PathT)
    walkWorking := fun _ => []
    walkDir := fun d => if d == (["d"] : PathT) then [["d", "c.bin"]] else []
    meta := fun p => if p == (["d", "c.bin"] : PathT) then some 3 else none
    bytes := fun p => if p == (["d", "c.bin"] : PathT) then some [0, 1, 2] else none
    text := fun _ => none
    ignoreData := ⟨none, none⟩ }

/-- A snapshot whose file `x` is both over the size ceiling and
null-prefixed. -/
def fsW3 : Fs :=
  { pathExists := fun _ => false
    isDir := fun _ => false
    isFile := fun p => p == (["x"] : PathT)
    walkWorking := fun _ => []
    walkDir := fun _ => []
    meta := fun p => if p == (["x"] : PathT) then some 2000000 else none
    bytes := fun p => if p == (["x"] : PathT) then some [0] else none
    text := fun _ => none
    ignoreData := ⟨none, none⟩ }

/-- Rule data whose custom source ignores exactly `secret.txt` and whose
gitignore source is absent. -/
def d5custom : IgnoreFilesHelper :=
  ⟨none, some (fun q => q == (["secret.txt"] : PathT))⟩

/-- Rule data whose gitignore source ignores exactly `target` and whose
custom source is absent. -/
def d5git : IgnoreFilesHelper :=
  ⟨some (fun q => q == (["target"] : PathT)), none⟩

/-- Options running the two overlapping glob patterns of the C6
counterexample. -/
def args6 : SimArgs :=
  { recursive := false, ignore_gitignore := false, ignore_custom := false,
    patterns := ["*.rs", "*"], max_lines := none }

/-- A snapshot whose working-directory walk yields the single regular
file `a.txt`. -/
def fs6 : Fs :=
  { pathExists := fun _ => false
    isDir := fun _ => false
    isFile := fun p => p == (["a.txt"] : PathT)
    walkWorking := fun _ => [["a.txt"]]
    walkDir := fun _ => []
    meta := fun _ => none
    bytes := fun _ => none
    text := fun _ => none
    ignoreData := ⟨none, none⟩ }

/-- Options running the single glob pattern `*`. -/
def args6w : SimArgs :=
  { recursive := false, ignore_gitignore := false, ignore_custom := false,
    patterns := ["*"], max_lines := none }

/-- Options naming one literal file `a`. -/
def args7 : SimArgs :=
  { recursive := false, ignore_gitignore := false, ignore_custom := false,
    patterns := ["a"], max_lines := none }

/-- A snapshot in which the path `a` exists as a regular file. -/
def fs7 : Fs :=
  { pathExists := fun p => p == (["a"] : PathT)
    isDir := fun _ => false
    isFile := fun p => p == (["a"] : PathT)
    walkWorking := fun _ => []
    walkDir := fun _ => []
    meta := fun _ => none
    bytes := fun _ => none
    text := fun _ => none
    ignoreData := ⟨none, none⟩ }

/-- Two candidate files of which only `b` has readable metadata. -/
def files10 : List PathT := [["a"], ["b"]]

/-- Size oracle failing on `a` and resolving `b`. -/
def size10 : PathT → Option Nat :=
  fun p => if p == (["b"] : PathT) then some 5 else none

/-- Unfolding of `pathLeB` on two non-empty paths. -/
theorem pathLeB_cons (x y : String) (xs ys : PathT) :
    pathLeB (x :: xs) (y :: ys) = true ↔
      x < y ∨ (x = y ∧ pathLeB xs ys = true) := by
  show (if x < y then true else if y < x then false else pathLeB xs ys) = true ↔ _
  split_ifs with h1 h2
  · simp [h1]
  · constructor
    · intro h; exact absurd h (by simp)
    · rintro (h | ⟨h, _⟩)
      · exact absurd h h1
      · exact absurd (h ▸ h2) (lt_irrefl x)
  · have hxy : x = y := le_antisymm (not_lt.mp h2) (not_lt.mp h1)
    simp [hxy, lt_irrefl]

/-- `pathLeB` is total. -/
theorem pathLeB_total : ∀ a b : PathT, pathLeB a b = true ∨ pathLeB b a = true := by
  intro a
  induction a with
  | nil => intro b; left; rfl
  | cons x xs ih =>
    intro b
    cases b with
    | nil => right; rfl
    | cons y ys =>
      rcases lt_trichotomy x y with h | h | h
      · left; exact (pathLeB_cons x y xs ys).mpr (Or.inl h)
      · rcases ih ys with h2 | h2
        · left; exact (pathLeB_cons x y xs ys).mpr (Or.inr ⟨h, h2⟩)
        · right; exact (pathLeB_cons y x ys xs).mpr (Or.inr ⟨h.symm, h2⟩)
      · right; exact (pathLeB_cons y x ys xs).mpr (Or.inl h)

/-- `pathLeB` is transitive. -/
theorem pathLeB_trans : ∀ a b c : PathT,
    pathLeB a b = true → pathLeB b c = true → pathLeB a c = true := by
  intro a
  induction a with
  | nil => intro b c _ _; rfl
  | cons x xs ih =>
    intro b c hab hbc
    cases b with
    | nil => exact absurd hab (by simp [pathLeB])
    | cons y ys =>
      cases c with
      | nil => exact absurd hbc (by simp [pathLeB])
      | cons z zs =>
        rcases (pathLeB_cons x y xs ys).mp hab with h1 | ⟨h1, h1'⟩ <;>
          rcases (pathLeB_cons y z ys zs).mp hbc with h2 | ⟨h2, h2'⟩
        · exact (pathLeB_cons x z xs zs).mpr (Or.inl (lt_trans h1 h2))
        · exact (pathLeB_cons x z xs zs).mpr (Or.inl (h2 ▸ h1))
        · exact (pathLeB_cons x z xs zs).mpr (Or.inl (h1 ▸ h2))
        · exact (pathLeB_cons x z xs zs).mpr
            (Or.inr ⟨h1.trans h2, ih ys zs h1' h2'⟩)

/-- `pathLeB` is antisymmetric. -/
theorem pathLeB_antisymm : ∀ a b : PathT,
    pathLeB a b = true → pathLeB b a = true → a = b := by
  intro a
  induction a with
  | nil =>
    intro b _ hba
    cases b with
    | nil => rfl
    | cons y ys => exact absurd hba (by simp [pathLeB])
  | cons x xs ih =>
    intro b hab hba
    cases b with
    | nil => exact absurd hab (by simp [pathLeB])
    | cons y ys =>
      rcases (pathLeB_cons x y xs ys).mp hab with h1 | ⟨h1, h1'⟩ <;>
        rcases (pathLeB_cons y x ys xs).mp hba with h2 | ⟨h2, h2'⟩
      · exact absurd h2 (lt_asymm h1)
      · exact absurd h1 (h2 ▸ lt_irrefl x)
      · exact absurd h2 (h1 ▸ lt_irrefl x)
      · rw [h1, ih ys h1' h2']

/-- Inserting into a sorted list permutes consing. -/
theorem insertSorted_perm (x : PathT) :
    ∀ l : List PathT, (insertSorted x l).Perm (x :: l) := by
  intro l
  induction l with
  | nil => exact List.Perm.refl _
  | cons y ys ih =>
    show (if pathLeB x y then x :: y :: ys else y :: insertSorted x ys).Perm _
    split_ifs
    · exact List.Perm.refl _
    · exact (ih.cons y).trans (List.Perm.swap x y ys)

/-- `rustSort` permutes its input. -/
theorem rustSort_perm : ∀ l : List PathT, (rustSort l).Perm l := by
  intro l
  induction l with
  | nil => exact List.Perm.refl _
  | cons x xs ih => exact (insertSorted_perm x (rustSort xs)).trans (ih.cons x)

/-- Inserting preserves `pathLeB`-sortedness. -/
theorem insertSorted_chain (x : PathT) :
    ∀ l : List PathT, List.Chain' (fun p q => pathLeB p q = true) l →
      List.Chain' (fun p q => pathLeB p q = true) (insertSorted x l) := by
  intro l
  induction l with
  | nil => intro _; simp [insertSorted]
  | cons y ys ih =>
    intro h
    show List.Chain' _ (if pathLeB x y then x :: y :: ys else y :: insertSorted x ys)
    split_ifs with hxy
    · exact List.chain'_cons.mpr ⟨hxy, h⟩
    · have hyx : pathLeB y x = true :=
        (pathLeB_total x y).resolve_left (by simp [hxy])
      have ih' := ih h.tail
      cases ys with
      | nil => simp [insertSorted, hyx]
      | cons z zs =>
        show List.Chain' _ (y :: if pathLeB x z then x :: z :: zs else z :: insertSorted x zs)
        by_cases hxz : pathLeB x z
        · simp only [hxz, if_true]
          exact List.chain'_cons.mpr ⟨hyx,
            List.chain'_cons.mpr ⟨hxz, h.tail⟩⟩
        · simp only [hxz, if_false]
          have hstep : pathLeB y z = true := (List.chain'_cons.mp h).1
          have : insertSorted x (z :: zs) = z :: insertSorted x zs := by
            simp [insertSorted, hxz]
          rw [this] at ih'
          exact List.chain'_cons.mpr ⟨hstep, ih'⟩

/-- `rustSort` sorts by `pathLeB`. -/
theorem rustSort_chain : ∀ l : List PathT,
    List.Chain' (fun p q => pathLeB p q = true) (rustSort l) := by
  intro l
  induction l with
  | nil => simp [rustSort]
  | cons x xs ih => exact insertSorted_chain x (rustSort xs) ih

/-- `dedupAdj` keeps the head of a non-empty list. -/
theorem dedupAdj_cons : ∀ (l : List PathT) (x : PathT),
    ∃ t, dedupAdj (x :: l) = x :: t := by
  intro l
  induction l with
  | nil => intro x; exact ⟨[], rfl⟩
  | cons y ys ih =>
    intro x
    show (∃ t, (if x = y then dedupAdj (y :: ys) else x :: dedupAdj (y :: ys)) = x :: t)
    split_ifs with hxy
    · obtain ⟨t, ht⟩ := ih y
      exact ⟨t, by rw [ht, hxy]⟩
    · exact ⟨dedupAdj (y :: ys), rfl⟩

/-- On a `pathLeB`-sorted list, `dedupAdj` produces a strictly sorted
list. -/
theorem dedupAdj_chain_lt : ∀ l : List PathT,
    List.Chain' (fun p q => pathLeB p q = true) l →
    List.Chain' (fun p q => pathLeB p q = true ∧ p ≠ q) (dedupAdj l) := by
  intro l
  induction l with
  | nil => intro _; simp [dedupAdj]
  | cons x l' ih =>
    intro h
    cases l' with
    | nil => simp [dedupAdj]
    | cons y ys =>
      show List.Chain' _ (if x = y then dedupAdj (y :: ys) else x :: dedupAdj (y :: ys))
      split_ifs with hxy
      · exact ih h.tail
      · obtain ⟨t, ht⟩ := dedupAdj_cons ys y
        have hrest := ih h.tail
        rw [ht] at hrest ⊢
        exact List.chain'_cons.mpr ⟨⟨(List.chain'_cons.mp h).1, hxy⟩, hrest⟩

/-- Membership in `dedupAdj` implies membership in the original list. -/
theorem dedupAdj_mem : ∀ (l : List PathT) (p : PathT), p ∈ dedupAdj l → p ∈ l := by
  intro l
  induction l with
  | nil => intro p h; exact absurd h (by simp [dedupAdj])
  | cons x l' ih =>
    intro p h
    cases l' with
    | nil => exact h
    | cons y ys =>
      rw [show dedupAdj (x :: y :: ys) =
        (if x = y then dedupAdj (y :: ys) else x :: dedupAdj (y :: ys)) from rfl] at h
      split_ifs at h with hxy
      · exact List.mem_cons_of_mem x (ih p h)
      · rcases List.mem_cons.mp h with h | h
        · exact h ▸ List.mem_cons_self x _
        · exact List.mem_cons_of_mem x (ih p h)

/-- `foldMin` never exceeds its initial value. -/
theorem foldMin_le : ∀ (xs : List Nat) (a : Nat), foldMin xs a ≤ a := by
  intro xs
  induction xs with
  | nil => intro a; exact le_refl a
  | cons x xs ih =>
    intro a
    exact le_trans (ih (min a x)) (min_le_left a x)

/-- `foldMin` is the initial value or an element of the list. -/
theorem foldMin_mem_or : ∀ (xs : List Nat) (a : Nat),
    foldMin xs a = a ∨ foldMin xs a ∈ xs := by
  intro xs
  induction xs with
  | nil => intro a; exact Or.inl rfl
  | cons x xs ih =>
    intro a
    rcases ih (min a x) with h | h
    · rcases le_total a x with hax | hxa
      · left; rw [show foldMin (x :: xs) a = foldMin xs (min a x) from rfl, h,
          min_eq_left hax]
      · right; rw [show foldMin (x :: xs) a = foldMin xs (min a x) from rfl, h,
          min_eq_right hxa]
        exact List.mem_cons_self x xs
    · right
      exact List.mem_cons_of_mem x (by rw [show foldMin (x :: xs) a = foldMin xs (min a x) from rfl]; exact h)

/-- Closed form of the `min_by_key` accumulator: the first index
attaining the overall minimum wins, the seed winning ties. -/
theorem minIdxAux_eq : ∀ (xs : List Nat) (bi bv i : Nat),
    minIdxAux bi bv i xs =
      if foldMin xs bv < bv then
        i + List.findIdx (fun x => x == foldMin xs bv) xs
      else bi := by
  intro xs
  induction xs with
  | nil =>
    intro bi bv i
    simp [minIdxAux, foldMin]
  | cons x xs ih =>
    intro bi bv i
    have hfold : foldMin (x :: xs) bv = foldMin xs (min bv x) := rfl
    show (if x < bv then minIdxAux i x (i+1) xs else minIdxAux bi bv (i+1) xs) = _
    by_cases hx : x < bv
    · have hmin : min bv x = x := min_eq_right hx.le
      rw [if_pos hx, ih i x (i+1), hfold, hmin]
      have hcond : foldMin xs x < bv := lt_of_le_of_lt (foldMin_le xs x) hx
      rw [if_pos hcond]
      by_cases hm : foldMin xs x < x
      · rw [if_pos hm]
        have hne : (x == foldMin xs x) = false := by
          simp [Nat.ne_of_gt hm]
        rw [List.findIdx_cons, hne]
        simp [Nat.add_assoc, Nat.add_comm 1]
      · have heq : foldMin xs x = x :=
          le_antisymm (foldMin_le xs x) (not_lt.mp hm)
        rw [if_neg hm, List.findIdx_cons]
        have : (x == foldMin xs x) = true := by simp [heq]
        rw [this]
        simp
    · have hbv : min bv x = bv := min_eq_left (not_lt.mp hx)
      rw [if_neg hx, ih bi bv (i+1), hfold, hbv]
      by_cases hm : foldMin xs bv < bv
      · rw [if_pos hm, if_pos hm]
        have hne : (x == foldMin xs bv) = false := by
          have : foldMin xs bv < x := lt_of_lt_of_le hm (not_lt.mp hx)
          simp [Nat.ne_of_gt this]
        rw [List.findIdx_cons, hne]
        simp [Nat.add_assoc, Nat.add_comm 1]
      · rw [if_neg hm, if_neg hm]

/-- The source's `min_by_key` index equals the spec's lowest index
attaining the smallest running total. -/
theorem minIdx_eq_leastLoadedIdx : ∀ l : List Nat, minIdx l = leastLoadedIdx l := by
  intro l
  cases l with
  | nil => rfl
  | cons x xs =>
    have hmin : listMin (x :: xs) = foldMin xs x := rfl
    show minIdxAux 0 x 1 xs = List.findIdx (fun t => t == listMin (x :: xs)) (x :: xs)
    rw [minIdxAux_eq, hmin, List.findIdx_cons]
    by_cases hm : foldMin xs x < x
    · rw [if_pos hm]
      have hne : (x == foldMin xs x) = false := by simp [Nat.ne_of_gt hm]
      rw [hne]
      simp [Nat.add_comm]
    · rw [if_neg hm]
      have heq : foldMin xs x = x :=
        le_antisymm (foldMin_le xs x) (not_lt.mp hm)
      have : (x == foldMin xs x) = true := by simp [heq]
      rw [this]
      rfl

/-- The chosen chunk index is always in range for a non-empty totals
list. -/
theorem minIdx_lt_length : ∀ l : List Nat, l ≠ [] → minIdx l < l.length := by
  intro l hl
  cases l with
  | nil => exact absurd rfl hl
  | cons x xs =>
    show minIdxAux 0 x 1 xs < xs.length + 1
    rw [minIdxAux_eq]
    by_cases hm : foldMin xs x < x
    · rw [if_pos hm]
      have hmem : foldMin xs x ∈ xs := by
        rcases foldMin_mem_or xs x with h | h
        · omega
        · exact h
      have : List.findIdx (fun v => v == foldMin xs x) xs < xs.length :=
        List.findIdx_lt_length_of_exists ⟨foldMin xs x, hmem, by simp⟩
      omega
    · rw [if_neg hm]; omega

/-- `modifyAt` preserves length. -/
theorem modifyAt_length {α : Type} (g : α → α) :
    ∀ (n : Nat) (l : List α), (modifyAt g n l).length = l.length := by
  intro n l
  induction l generalizing n with
  | nil => cases n <;> rfl
  | cons x xs ih => cases n with
    | zero => rfl
    | succ m => exact congrArg Nat.succ (ih m)

/-- Appending a file inside one chunk adds exactly that file to the
flattened contents. -/
theorem flatten_modifyAt_perm (f : PathT) :
    ∀ (i : Nat) (res : List (List PathT)), i < res.length →
      ((modifyAt (fun c => c ++ [f]) i res).flatten).Perm (f :: res.flatten) := by
  intro i res
  induction res generalizing i with
  | nil => intro h; exact absurd h (by simp)
  | cons x xs ih =>
    intro h
    cases i with
    | zero =>
      show ((x ++ [f]) :: xs).flatten.Perm _
      rw [List.flatten_cons, List.append_assoc]
      exact List.perm_middle
    | succ m =>
      have hm : m < xs.length := by simpa using h
      show (x ++ (modifyAt (fun c => c ++ [f]) m xs).flatten).Perm
        (f :: (x ++ xs.flatten))
      exact (List.Perm.append_left x (ih m hm)).trans List.perm_middle

/-- The assignment loop preserves the number of chunks and totals. -/
theorem assignLoop_lengths :
    ∀ (fws : List (PathT × Nat)) (res : List (List PathT)) (sizes : List Nat),
      ((assignLoop fws res sizes).1).length = res.length ∧
      ((assignLoop fws res sizes).2).length = sizes.length := by
  intro fws
  induction fws with
  | nil => intro res sizes; exact ⟨rfl, rfl⟩
  | cons fw rest ih =>
    intro res sizes
    obtain ⟨h1, h2⟩ := ih (modifyAt (fun c => c ++ [fw.1]) (minIdx sizes) res)
      (modifyAt (fun t => t + fw.2) (minIdx sizes) sizes)
    exact ⟨by rw [show assignLoop (fw :: rest) res sizes =
        assignLoop rest (modifyAt (fun c => c ++ [fw.1]) (minIdx sizes) res)
          (modifyAt (fun t => t + fw.2) (minIdx sizes) sizes) from rfl,
        h1, modifyAt_length],
      by rw [show assignLoop (fw :: rest) res sizes =
        assignLoop rest (modifyAt (fun c => c ++ [fw.1]) (minIdx sizes) res)
          (modifyAt (fun t => t + fw.2) (minIdx sizes) sizes) from rfl,
        h2, modifyAt_length]⟩

/-- The flattened chunk contents after assignment are exactly the
assigned files plus whatever the chunks already held. -/
theorem assignLoop_flatten_perm :
    ∀ (fws : List (PathT × Nat)) (res : List (List PathT)) (sizes : List Nat),
      res.length = sizes.length → sizes ≠ [] →
      ((assignLoop fws res sizes).1.flatten).Perm
        (fws.map Prod.fst ++ res.flatten) := by
  intro fws
  induction fws with
  | nil => intro res sizes _ _; exact List.Perm.refl _
  | cons fw rest ih =>
    intro res sizes hlen hne
    obtain ⟨f, s⟩ := fw
    have hi : minIdx sizes < res.length := hlen ▸ minIdx_lt_length sizes hne
    have hlen2 : (modifyAt (fun c => c ++ [f]) (minIdx sizes) res).length =
        (modifyAt (fun t => t + s) (minIdx sizes) sizes).length := by
      rw [modifyAt_length, modifyAt_length]; exact hlen
    have hne2 : modifyAt (fun t => t + s) (minIdx sizes) sizes ≠ [] := by
      intro hc
      have := modifyAt_length (fun t => t + s) (minIdx sizes) sizes
      rw [hc] at this
      exact hne (List.length_eq_zero.mp this.symm)
    have step := ih (modifyAt (fun c => c ++ [f]) (minIdx sizes) res)
      (modifyAt (fun t => t + s) (minIdx sizes) sizes) hlen2 hne2
    have hmid : (rest.map Prod.fst ++
        (modifyAt (fun c => c ++ [f]) (minIdx sizes) res).flatten).Perm
        (f :: (rest.map Prod.fst ++ res.flatten)) :=
      (List.Perm.append_left _
        (flatten_modifyAt_perm f (minIdx sizes) res hi)).trans List.perm_middle
    show ((assignLoop rest (modifyAt (fun c => c ++ [f]) (minIdx sizes) res)
        (modifyAt (fun t => t + s) (minIdx sizes) sizes)).1.flatten).Perm
        (f :: (rest.map Prod.fst ++ res.flatten))
    exact step.trans hmid

/-- Removing empty chunks does not change the flattened contents. -/
theorem flatten_filter_nonempty :
    ∀ l : List (List PathT), (l.filter (fun c => !c.isEmpty)).flatten = l.flatten := by
  intro l
  induction l with
  | nil => rfl
  | cons x xs ih =>
    cases x with
    | nil => simpa using ih
    | cons y ys => simpa using ih

/-- Flattening chunks that all start empty yields nothing. -/
theorem flatten_replicate_nil :
    ∀ k : Nat, (List.replicate k ([] : List PathT)).flatten = [] := by
  intro k
  induction k with
  | zero => rfl
  | succ m ih => simp [ih]

/-- With every size resolved, the paths of `files_with_sizes` are
exactly the candidate files, in order. -/
theorem filterMap_sizes_map_fst (sizeOf : PathT → Option Nat) :
    ∀ files : List PathT, (∀ f ∈ files, (sizeOf f).isSome = true) →
      (files.filterMap (fun f => (sizeOf f).map (fun s => (f, s)))).map Prod.fst
        = files := by
  intro files
  induction files with
  | nil => intro _; rfl
  | cons f fs ih =>
    intro h
    obtain ⟨s, hs⟩ := Option.isSome_iff_exists.mp (h f (List.mem_cons_self f fs))
    rw [List.filterMap_cons]
    rw [hs]
    show (((f, s) :: fs.filterMap (fun f => (sizeOf f).map (fun s => (f, s))))).map Prod.fst = f :: fs
    rw [List.map_cons, ih (fun g hg => h g (List.mem_cons_of_mem f hg))]

/-- A file whose metadata read fails never enters `files_with_sizes`. -/
theorem not_mem_filterMap_fst (sizeOf : PathT → Option Nat) (f : PathT)
    (hf : sizeOf f = none) :
    ∀ files : List PathT,
      f ∉ (files.filterMap (fun g => (sizeOf g).map (fun s => (g, s)))).map Prod.fst := by
  intro files
  induction files with
  | nil => simp
  | cons g gs ih =>
    rw [List.filterMap_cons]
    cases hg : sizeOf g with
    | none => simpa [hg] using ih
    | some s =>
      show f ∉ ((g, s) :: gs.filterMap (fun g => (sizeOf g).map (fun s => (g, s)))).map Prod.fst
      rw [List.map_cons]
      intro hmem
      rcases List.mem_cons.mp hmem with h | h
      · rw [show f = g from h, hg] at hf
        exact Option.noConfusion hf
      · exact ih h

/-- Inserting into the descending order permutes consing. -/
theorem insertDesc_perm (x : PathT × Nat) :
    ∀ l : List (PathT × Nat), (insertDesc x l).Perm (x :: l) := by
  intro l
  induction l with
  | nil => exact List.Perm.refl _
  | cons y ys ih =>
    show (if y.2 ≤ x.2 then x :: y :: ys else y :: insertDesc x ys).Perm _
    split_ifs
    · exact List.Perm.refl _
    · exact (ih.cons y).trans (List.Perm.swap x y ys)

/-- `sortDesc` permutes its input. -/
theorem sortDesc_perm : ∀ l : List (PathT × Nat), (sortDesc l).Perm l := by
  intro l
  induction l with
  | nil => exact List.Perm.refl _
  | cons x xs ih => exact (insertDesc_perm x (sortDesc xs)).trans (ih.cons x)

/-- Inserting preserves descending-size sortedness. -/
theorem insertDesc_chain (x : PathT × Nat) :
    ∀ l : List (PathT × Nat),
      List.Chain' (fun a b : PathT × Nat => b.2 ≤ a.2) l →
      List.Chain' (fun a b : PathT × Nat => b.2 ≤ a.2) (insertDesc x l) := by
  intro l
  induction l with
  | nil => intro _; simp [insertDesc]
  | cons y ys ih =>
    intro h
    show List.Chain' _ (if y.2 ≤ x.2 then x :: y :: ys else y :: insertDesc x ys)
    split_ifs with hxy
    · exact List.chain'_cons.mpr ⟨hxy, h⟩
    · have hyx : x.2 ≤ y.2 := le_of_not_le hxy
      have ih' := ih h.tail
      cases ys with
      | nil => simp [insertDesc, hyx]
      | cons z zs =>
        show List.Chain' _ (y :: if z.2 ≤ x.2 then x :: z :: zs else z :: insertDesc x zs)
        by_cases hxz : z.2 ≤ x.2
        · simp only [hxz, if_true]
          exact List.chain'_cons.mpr ⟨hyx, List.chain'_cons.mpr ⟨hxz, h.tail⟩⟩
        · simp only [hxz, if_false]
          have hstep : z.2 ≤ y.2 := (List.chain'_cons.mp h).1
          have : insertDesc x (z :: zs) = z :: insertDesc x zs := by
            simp [insertDesc, hxz]
          rw [this] at ih'
          exact List.chain'_cons.mpr ⟨hstep, ih'⟩

/-- `sortDesc` sorts by size, descending. -/
theorem sortDesc_chain : ∀ l : List (PathT × Nat),
    List.Chain' (fun a b : PathT × Nat => b.2 ≤ a.2) (sortDesc l) := by
  intro l
  induction l with
  | nil => simp [sortDesc]
  | cons x xs ih => exact insertDesc_chain x (sortDesc xs) ih

/-- The two assignment loops agree. -/
theorem assignLoop_eq_refAssign :
    ∀ (fws : List (PathT × Nat)) (res : List (List PathT)) (sizes : List Nat),
      assignLoop fws res sizes = refAssign fws res sizes := by
  intro fws
  induction fws with
  | nil => intro res sizes; rfl
  | cons fw rest ih =>
    intro res sizes
    obtain ⟨f, s⟩ := fw
    show assignLoop rest _ _ = refAssign rest _ _
    rw [minIdx_eq_leastLoadedIdx]
    exact ih _ _

/-- Membership after `HashSet::insert`. -/
theorem mem_insertSet (l : List PathT) (p q : PathT) :
    q ∈ insertSet l p ↔ q ∈ l ∨ q = p := by
  show q ∈ (if p ∈ l then l else l ++ [p]) ↔ _
  split_ifs with hp
  · constructor
    · exact Or.inl
    · rintro (h | h)
      · exact h
      · exact h ▸ hp
  · simp [List.mem_append]

/-- Folding the shared per-entry step over fresh, duplicate-free entries
keeps `files` inside `processed_files` and keeps the processed and
ignored sets disjoint. -/
theorem condStep_fold_inv (cond : PathT → Bool) :
    ∀ (entries : List PathT) (st : CState),
      entries.Nodup →
      (∀ e ∈ entries, e ∉ st.processed_files ∧ e ∉ st.ignored_files) →
      (∀ q ∈ st.files, q ∈ st.processed_files) →
      (∀ q ∈ st.processed_files, q ∉ st.ignored_files) →
      (∀ q ∈ (entries.foldl (condStep cond) st).files,
          q ∈ (entries.foldl (condStep cond) st).processed_files) ∧
      (∀ q ∈ (entries.foldl (condStep cond) st).processed_files,
          q ∉ (entries.foldl (condStep cond) st).ignored_files) := by
  intro entries
  induction entries with
  | nil => intro st _ _ h1 h2; exact ⟨h1, h2⟩
  | cons e rest ih =>
    intro st hnd hfresh h1 h2
    have he := hfresh e (List.mem_cons_self e rest)
    have hrest := fun x hx => hfresh x (List.mem_cons_of_mem e hx)
    have hnd' : rest.Nodup := hnd.of_cons
    have hene : ∀ x ∈ rest, x ≠ e := fun x hx =>
      fun hc => (List.nodup_cons.mp hnd).1 (hc ▸ hx)
    rw [List.foldl_cons]
    cases hc : cond e with
    | true =>
      have hstep : condStep cond st e =
          { st with processed_files := insertSet st.processed_files e,
                    files := st.files ++ [e] } := by
        simp [condStep, hc]
      rw [hstep]
      refine ih _ hnd' ?_ ?_ ?_
      · intro x hx
        constructor
        · intro hmem
          rcases (mem_insertSet _ _ _).mp hmem with h | h
          · exact (hrest x hx).1 h
          · exact hene x hx h
        · exact (hrest x hx).2
      · intro q hq
        rcases List.mem_append.mp hq with h | h
        · exact (mem_insertSet _ _ _).mpr (Or.inl (h1 q h))
        · exact (mem_insertSet _ _ _).mpr (Or.inr (List.mem_singleton.mp h))
      · intro q hq
        rcases (mem_insertSet _ _ _).mp hq with h | h
        · exact h2 q h
        · exact h ▸ he.2
    | false =>
      have hstep : condStep cond st e =
          { st with ignored_files := insertSet st.ignored_files e } := by
        simp [condStep, hc]
      rw [hstep]
      refine ih _ hnd' ?_ h1 ?_
      · intro x hx
        refine ⟨(hrest x hx).1, ?_⟩
        intro hmem
        rcases (mem_insertSet _ _ _).mp hmem with h | h
        · exact (hrest x hx).2 h
        · exact hene x hx h
      · intro q hq hmem
        rcases (mem_insertSet _ _ _).mp hmem with h | h
        · exact h2 q hq h
        · exact he.1 (h ▸ hq)

/-- C8: for every candidate set, a chunk count of 0 or an unspecified
chunk count makes `distribute_files` return a single chunk holding the
whole candidate set in its existing order, independently of the size
oracle (the packing logic is not invoked). -/
theorem c8_no_split_single_chunk :
    ∀ (files : List PathT) (sizeOf : PathT → Option Nat),
      distribute_files files none sizeOf = [files] ∧
      distribute_files files (some 0) sizeOf = [files] := by
  intro files sizeOf
  constructor
  · rfl
  · simp [distribute_files]

/-- C9: the matcher compiled from pattern `*.{rs,toml}` matches
`lib.rs` and `Cargo.toml` but not `readme.md`, and the matcher compiled
from `src/*` matches `src/main.rs` and `src/cli.rs`. -/
theorem c9_glob_examples :
    ((glob_to_regex ("*.\x7brs,toml\x7d")).map (fun re =>
        (re.isMatch ("lib.rs"), re.isMatch ("Cargo.toml"),
         re.isMatch ("readme.md"))) = some (true, true, false)) ∧
    ((glob_to_regex ("src/*")).map (fun re =>
        (re.isMatch ("src/main.rs"), re.isMatch ("src/cli.rs")))
      = some (true, true)) := by
  constructor
  · decide
  · decide

/-- C4 counterexample: the pattern `(` does not compile (its translated
regex `.*($` is rejected), and `glob_to_regex` yields no matcher at all
— the unwrap panics and aborts the run — instead of an always-false
matcher. -/
theorem c4_counterexample :
    rustRegexCompile (['.', '*'] ++ glob_to_regex_str ("(").toList ++ ['$'])
        = none ∧
    glob_to_regex ("(") = none := by
  constructor
  · decide
  · decide

/-- C4 amended: `glob_to_regex` returns exactly the result of compiling
the translated pattern; when that compilation fails the failure is
propagated as a panic (modelled `none`) — there is no fallback matcher
that matches nothing. -/
theorem c4_compile_failure_propagates :
    (∀ (p : String) (r : Regex),
        glob_to_regex p = some r →
        rustRegexCompile (['.', '*'] ++ glob_to_regex_str p.toList ++ ['$'])
          = some r) ∧
    (∀ p : String,
        rustRegexCompile (['.', '*'] ++ glob_to_regex_str p.toList ++ ['$'])
          = none →
        glob_to_regex p = none) :=
  ⟨fun _ _ h => h, fun _ h => h⟩

/-- C4 witness: the failure propagation instantiated at the concrete
pattern `(`. -/
theorem c4_witness :
    glob_to_regex ("(") = none :=
  c4_compile_failure_propagates.2 ("(") (by decide)

/-- C5 counterexample: with only the ignore-VCS flag set, a path that
the custom rule source would ignore is not ignored (the custom source is
not applied); with only the ignore-custom flag set, a path the gitignore
source would ignore is not ignored either. -/
theorem c5_counterexample :
    (d5custom.is_ignored ["secret.txt"] = true ∧
     effIgnored (newIgnoreHelper true false d5custom) ["secret.txt"] = false) ∧
    (d5git.is_ignored ["target"] = true ∧
     effIgnored (newIgnoreHelper false true d5git) ["target"] = false) := by
  refine ⟨⟨?_, ?_⟩, ⟨?_, ?_⟩⟩ <;> decide

/-- C5 amended: the two override options are coupled, not independent —
if either is set, no helper is constructed, so neither the VCS nor the
custom rule source is loaded or applied; both sources are loaded only
when neither option is set. -/
theorem c5_flags_disable_both_sources :
    (∀ (g c : Bool) (d : IgnoreFilesHelper) (p : PathT),
        (g = true ∨ c = true) →
        newIgnoreHelper g c d = none ∧
        effIgnored (newIgnoreHelper g c d) p = false) ∧
    (∀ d : IgnoreFilesHelper, newIgnoreHelper false false d = some d) := by
  constructor
  · intro g c d p hgc
    have hnone : newIgnoreHelper g c d = none := by
      rcases hgc with h | h
      · subst h; cases c <;> rfl
      · subst h; cases g <;> rfl
    exact ⟨hnone, by rw [hnone]; rfl⟩
  · intro d; rfl

/-- C5 witness: the coupling instantiated at concrete flags and rule
data. -/
theorem c5_witness :
    (newIgnoreHelper true false d5custom = none ∧
     effIgnored (newIgnoreHelper true false d5custom) ["secret.txt"] = false) ∧
    newIgnoreHelper false false d5custom = some d5custom :=
  ⟨c5_flags_disable_both_sources.1 true false d5custom ["secret.txt"]
      (Or.inl rfl),
   c5_flags_disable_both_sources.2 d5custom⟩

/-- C1 counterexample: on the empty candidate set with K = 1 the result
is a single empty chunk (violating non-emptiness of returned chunks),
and on a one-file candidate set whose size cannot be resolved the file
is dropped, so the union of the returned chunks is not the candidate
set. -/
theorem c1_counterexample :
    ([] ∈ distribute_files [] (some 1) sizeNoneFn) ∧
    ¬ ((distribute_files [["a"]] (some 1) sizeNoneFn).flatten.Perm [["a"]]) := by
  constructor
  · decide
  · decide

/-- C3 counterexample: with no `max_lines` ceiling configured, a file
whose first read bytes contain a null byte is collected into the
candidate set — the binary sniff never runs. -/
theorem c3_counterexample :
    collect_files args3 fs3 =
      some ⟨[["d", "c.bin"]], [["d", "c.bin"]], []⟩ ∧
    fs3.bytes ["d", "c.bin"] = some [0, 1, 2] ∧
    (([0, 1, 2] : List Nat).take (min 1024 3)).contains 0 = true := by
  refine ⟨?_, ?_, ?_⟩ <;> decide

/-- C6 counterexample: over the pattern list `["*.rs", "*"]` the file
`a.txt` is rejected by the first pattern and accepted by the second,
ending up in the candidate set and in the rejected provenance set at
once. -/
theorem c6_counterexample :
    ∃ st : CState, collect_files args6 fs6 = some st ∧
      (["a.txt"] : PathT) ∈ st.files ∧
      (["a.txt"] : PathT) ∈ st.ignored_files :=
  ⟨⟨[["a.txt"]], [["a.txt"]], [["a.txt"]]⟩, by decide, by decide, by decide⟩

/-- C1 amended: for every non-empty candidate set all of whose files'
sizes resolve, and every requested chunk count K ≥ 1, the multiset union
of the returned chunks is exactly the candidate set, no returned chunk
is empty, and at most K chunks are returned. -/
theorem c1_chunks_cover_nonempty_bounded (files : List PathT) (K : Nat)
    (sizeOf : PathT → Option Nat)
    (hne : files ≠ []) (hK : K ≠ 0)
    (hall : ∀ f ∈ files, (sizeOf f).isSome = true) :
    ((distribute_files files (some K) sizeOf).flatten).Perm files ∧
    (∀ c ∈ distribute_files files (some K) sizeOf, c ≠ []) ∧
    (distribute_files files (some K) sizeOf).length ≤ K := by
  have hcond : ¬ (K = 0 ∨ files = []) := by
    rintro (h | h)
    · exact hK h
    · exact hne h
  have hdist : distribute_files files (some K) sizeOf =
      (assignLoop
        (sortDesc (files.filterMap (fun f => (sizeOf f).map (fun s => (f, s)))))
        (List.replicate K []) (List.replicate K 0)).1.filter
        (fun c => !c.isEmpty) := by
    simp only [distribute_files]
    rw [if_neg hcond]
  have hrep : (List.replicate K (0 : Nat)) ≠ [] := by
    intro hcontra
    have := congrArg List.length hcontra
    simp at this
    exact hK this
  have hperm : ((assignLoop
      (sortDesc (files.filterMap (fun f => (sizeOf f).map (fun s => (f, s)))))
      (List.replicate K []) (List.replicate K 0)).1.flatten).Perm files := by
    have h1 := assignLoop_flatten_perm
      (sortDesc (files.filterMap (fun f => (sizeOf f).map (fun s => (f, s)))))
      (List.replicate K []) (List.replicate K 0) (by simp) hrep
    rw [flatten_replicate_nil, List.append_nil] at h1
    have h2 := (sortDesc_perm
      (files.filterMap (fun f => (sizeOf f).map (fun s => (f, s))))).map Prod.fst
    rw [filterMap_sizes_map_fst sizeOf files hall] at h2
    exact h1.trans h2
  refine ⟨?_, ?_, ?_⟩
  · rw [hdist, flatten_filter_nonempty]
    exact hperm
  · intro c hc
    rw [hdist] at hc
    have hkeep := (List.mem_filter.mp hc).2
    intro hcnil
    rw [hcnil] at hkeep
    simp at hkeep
  · rw [hdist]
    have hlen := (assignLoop_lengths
      (sortDesc (files.filterMap (fun f => (sizeOf f).map (fun s => (f, s)))))
      (List.replicate K []) (List.replicate K 0)).1
    have hfil := List.length_filter_le (fun c : List PathT => !c.isEmpty)
      (assignLoop
        (sortDesc (files.filterMap (fun f => (sizeOf f).map (fun s => (f, s)))))
        (List.replicate K []) (List.replicate K 0)).1
    rw [hlen, List.length_replicate] at hfil
    exact hfil

/-- C1 witness: the amended distribution contract instantiated on three
concrete files split into two chunks. -/
theorem c1_witness :
    filesW1 ≠ [] ∧ (2 : Nat) ≠ 0 ∧ (∀ f ∈ filesW1, (sizeW1 f).isSome = true) ∧
    (((distribute_files filesW1 (some 2) sizeW1).flatten).Perm filesW1 ∧
     (∀ c ∈ distribute_files filesW1 (some 2) sizeW1, c ≠ []) ∧
     (distribute_files filesW1 (some 2) sizeW1).length ≤ 2) :=
  ⟨by decide, by decide, by decide,
   c1_chunks_cover_nonempty_bounded filesW1 2 sizeW1 (by decide) (by decide)
     (by decide)⟩

/-- C2: `distribute_files` implements exactly the deterministic greedy
reference algorithm of the spec — files sorted by size descending, each
file assigned to the chunk whose running total is smallest, ties broken
by the lowest chunk index — so equal inputs always produce equal
assignments. -/
theorem c2_greedy_matches_reference :
    (∀ (files : List PathT) (k : Option Nat) (sizeOf : PathT → Option Nat),
        distribute_files files k sizeOf = specDistribute files k sizeOf) ∧
    (∀ l : List (PathT × Nat),
        List.Chain' (fun a b : PathT × Nat => b.2 ≤ a.2) (sortDesc l)) := by
  constructor
  · intro files k sizeOf
    cases k with
    | none => rfl
    | some chunks =>
      simp only [distribute_files, specDistribute]
      rw [assignLoop_eq_refAssign]
  · exact sortDesc_chain

/-- C3 amended: when a `max_lines` ceiling is configured and a file's
metadata is readable, a null byte among the first
`min 1024 len` read bytes forces exclusion regardless of the line count,
and a file over 1,000,000 bytes is classified binary from its metadata
alone (its content is never consulted) and excluded. -/
theorem c3_binary_rejected_under_max_lines (fs : Fs) (p : PathT) (m sz : Nat)
    (hm : fs.meta p = some sz) :
    (∀ content : List Nat, fs.bytes p = some content →
        (content.take (min 1024 content.length)).contains 0 = true →
        should_include_file (some m) fs p = false) ∧
    (1000000 < sz →
        is_binary_file fs p = true ∧
        should_include_file (some m) fs p = false) := by
  have hkey : is_binary_file fs p = true →
      should_include_file (some m) fs p = false := by
    intro hb
    have hcount : count_lines fs p = Except.error IoErrorKind.invalidData := by
      simp [count_lines, hb]
    simp [should_include_file, hcount]
  constructor
  · intro content hc hnull
    have hb : is_binary_file fs p = true := by
      simp only [is_binary_file, hm, hc]
      by_cases hlen : 1000000 < sz
      · rw [if_pos hlen]
      · rw [if_neg hlen]
        exact hnull
    exact hkey hb
  · intro hbig
    have hb : is_binary_file fs p = true := by
      simp only [is_binary_file, hm]
      rw [if_pos hbig]
    exact ⟨hb, hkey hb⟩

/-- C3 witness: the amended classifier contract instantiated on a file
that is both over the size ceiling and null-prefixed. -/
theorem c3_witness :
    fsW3.meta ["x"] = some 2000000 ∧
    should_include_file (some 10) fsW3 ["x"] = false ∧
    is_binary_file fsW3 ["x"] = true :=
  ⟨by decide,
   (c3_binary_rejected_under_max_lines fsW3 ["x"] 10 2000000 (by decide)).1
     [0] (by decide) (by decide),
   ((c3_binary_rejected_under_max_lines fsW3 ["x"] 10 2000000 (by decide)).2
     (by decide)).1⟩

/-- C10: with K ≥ 1, a candidate file whose metadata read fails is
excluded from every chunk that `distribute_files` returns. -/
theorem c10_unsized_excluded (files : List PathT) (K : Nat)
    (sizeOf : PathT → Option Nat) (f : PathT)
    (hK : 1 ≤ K) (hf : sizeOf f = none) :
    ∀ c ∈ distribute_files files (some K) sizeOf, f ∉ c := by
  intro c hc hfc
  by_cases hne : files = []
  · subst hne
    have hdist : distribute_files [] (some K) sizeOf = [[]] := by
      simp [distribute_files]
    rw [hdist] at hc
    rw [List.mem_singleton.mp hc] at hfc
    exact absurd hfc (List.not_mem_nil f)
  · have hK0 : K ≠ 0 := by omega
    have hcond : ¬ (K = 0 ∨ files = []) := by
      rintro (h | h)
      · exact hK0 h
      · exact hne h
    have hdist : distribute_files files (some K) sizeOf =
        (assignLoop
          (sortDesc (files.filterMap (fun g => (sizeOf g).map (fun s => (g, s)))))
          (List.replicate K []) (List.replicate K 0)).1.filter
          (fun ch => !ch.isEmpty) := by
      simp only [distribute_files]
      rw [if_neg hcond]
    have hrep : (List.replicate K (0 : Nat)) ≠ [] := by
      intro hcontra
      have := congrArg List.length hcontra
      simp at this
      exact hK0 this
    rw [hdist] at hc
    have hc2 := (List.mem_filter.mp hc).1
    have hmem : f ∈ (assignLoop
        (sortDesc (files.filterMap (fun g => (sizeOf g).map (fun s => (g, s)))))
        (List.replicate K []) (List.replicate K 0)).1.flatten :=
      List.mem_flatten.mpr ⟨c, hc2, hfc⟩
    have hperm := assignLoop_flatten_perm
      (sortDesc (files.filterMap (fun g => (sizeOf g).map (fun s => (g, s)))))
      (List.replicate K []) (List.replicate K 0) (by simp) hrep
    rw [flatten_replicate_nil, List.append_nil] at hperm
    have hmem2 : f ∈ (sortDesc
        (files.filterMap (fun g => (sizeOf g).map (fun s => (g, s))))).map
        Prod.fst := hperm.mem_iff.mp hmem
    have hmem3 : f ∈ (files.filterMap
        (fun g => (sizeOf g).map (fun s => (g, s)))).map Prod.fst :=
      (((sortDesc_perm _).map Prod.fst).mem_iff).mp hmem2
    exact not_mem_filterMap_fst sizeOf f hf files hmem3

/-- C10 witness: the exclusion instantiated on a concrete run in which
only one of two files has readable metadata. -/
theorem c10_witness :
    (1 : Nat) ≤ 1 ∧ size10 ["a"] = none ∧
    (∀ c ∈ distribute_files files10 (some 1) size10, (["a"] : PathT) ∉ c) :=
  ⟨by decide, by decide,
   c10_unsized_excluded files10 1 size10 ["a"] (by decide) (by decide)⟩

/-- The pattern loop on a single pattern is just one `collectOne` step. -/
theorem collectLoop_singleton (fs : Fs) (args : SimArgs)
    (hl : Option IgnoreFilesHelper) (pat : String) (st0 st1 : CState) :
    collectLoop fs args hl [pat] st0 = some st1 ↔
    collectOne fs args hl st0 pat = some st1 := by
  show (match collectOne fs args hl st0 pat with
        | some st2 => collectLoop fs args hl [] st2
        | none => none) = some st1 ↔ _
  cases h : collectOne fs args hl st0 pat with
  | some st2 => simp [collectLoop]
  | none => simp

/-- One pattern pass from the empty provenance state never records a
pushed file as ignored, provided the walker streams are duplicate-free. -/
theorem collectOne_empty_disjoint (fs : Fs) (args : SimArgs)
    (hl : Option IgnoreFilesHelper) (pat : String) (st1 : CState)
    (hw : (fs.walkWorking args.recursive).Nodup)
    (hd : ∀ d, (fs.walkDir d).Nodup)
    (h : collectOne fs args hl ⟨[], [], []⟩ pat = some st1) :
    ∀ q ∈ st1.files, q ∉ st1.ignored_files := by
  unfold collectOne at h
  by_cases hex : fs.pathExists (parsePath pat) = true
  · rw [if_pos hex] at h
    by_cases hdir : fs.isDir (parsePath pat) = true
    · rw [if_pos hdir] at h
      have hst1 := (Option.some.inj h).symm
      subst hst1
      have hinv := condStep_fold_inv
        (fun p => should_include_file args.max_lines fs p)
        (walkFiles fs hl (fs.walkDir (parsePath pat))) ⟨[], [], []⟩
        (((hd (parsePath pat)).filter _).filter _)
        (fun e _ => ⟨List.not_mem_nil e, List.not_mem_nil e⟩)
        (fun q hq => absurd hq (List.not_mem_nil q))
        (fun q hq _ => absurd hq (List.not_mem_nil q))
      intro q hq
      exact hinv.2 q (hinv.1 q hq)
    · rw [if_neg hdir] at h
      have hst1 := (Option.some.inj h).symm
      subst hst1
      intro q _ hc
      exact absurd hc (List.not_mem_nil q)
  · rw [if_neg hex] at h
    unfold collect_from_glob_pattern at h
    cases hre : glob_to_regex pat with
    | none =>
      rw [hre] at h
      exact Option.noConfusion h
    | some re =>
      rw [hre] at h
      have hst1 := (Option.some.inj h).symm
      subst hst1
      have hinv := condStep_fold_inv
        (fun p => re.isMatch (String.intercalate ("/") p) &&
          should_include_file args.max_lines fs p)
        (walkFiles fs hl (fs.walkWorking args.recursive)) ⟨[], [], []⟩
        ((hw.filter _).filter _)
        (fun e _ => ⟨List.not_mem_nil e, List.not_mem_nil e⟩)
        (fun q hq => absurd hq (List.not_mem_nil q))
        (fun q hq _ => absurd hq (List.not_mem_nil q))
      intro q hq
      exact hinv.2 q (hinv.1 q hq)

/-- C6 amended: after a run over a single pattern (with duplicate-free
walker streams) the candidate set and the rejected provenance set are
disjoint; with several patterns a path rejected under one pattern and
accepted under a later one appears in both sets. -/
theorem c6_single_pattern_disjoint (args : SimArgs) (fs : Fs) (pat : String)
    (st : CState)
    (hp : args.patterns = [pat])
    (hw : ∀ b, (fs.walkWorking b).Nodup)
    (hd : ∀ d, (fs.walkDir d).Nodup)
    (h : collect_files args fs = some st) :
    ∀ q ∈ st.files, q ∉ st.ignored_files := by
  simp only [collect_files, hp] at h
  cases hloop : collectLoop fs args
      (newIgnoreHelper args.ignore_gitignore args.ignore_custom fs.ignoreData)
      [pat] ⟨[], [], []⟩ with
  | none =>
    rw [hloop] at h
    exact Option.noConfusion h
  | some st1 =>
    rw [hloop] at h
    have hst := (Option.some.inj h).symm
    subst hst
    have hone := (collectLoop_singleton fs args _ pat _ st1).mp hloop
    have hdisj := collectOne_empty_disjoint fs args _ pat st1
      (hw args.recursive) hd hone
    intro q hq
    have hq2 : q ∈ st1.files :=
      ((rustSort_perm st1.files).mem_iff).mp (dedupAdj_mem _ q hq)
    exact hdisj q hq2

/-- C6 witness: the single-pattern disjointness instantiated on a
concrete run over the pattern `*`. -/
theorem c6_witness :
    args6w.patterns = ["*"] ∧
    collect_files args6w fs6 = some ⟨[["a.txt"]], [["a.txt"]], []⟩ ∧
    (∀ q ∈ ([[("a.txt" : String)]] : List PathT), q ∉ ([] : List PathT)) :=
  ⟨rfl, by decide,
   c6_single_pattern_disjoint args6w fs6 ("*")
     ⟨[["a.txt"]], [["a.txt"]], []⟩ rfl
     (fun _ => by show ([[("a.txt" : String)]] : List PathT).Nodup; decide)
     (fun _ => by show ([] : List PathT).Nodup; exact List.nodup_nil)
     (by decide)⟩

/-- C7: the candidate set produced by `collect_files` is sorted in
ascending path order and contains no duplicate paths. -/
theorem c7_candidate_sorted_nodup (args : SimArgs) (fs : Fs) (st : CState)
    (h : collect_files args fs = some st) :
    List.Pairwise (fun p q => pathLeB p q = true) st.files ∧ st.files.Nodup := by
  simp only [collect_files] at h
  cases hloop : collectLoop fs args
      (newIgnoreHelper args.ignore_gitignore args.ignore_custom fs.ignoreData)
      args.patterns ⟨[], [], []⟩ with
  | none =>
    rw [hloop] at h
    exact Option.noConfusion h
  | some st1 =>
    rw [hloop] at h
    have hst := (Option.some.inj h).symm
    subst hst
    have hchain := dedupAdj_chain_lt (rustSort st1.files) (rustSort_chain st1.files)
    haveI : IsTrans PathT (fun p q => pathLeB p q = true ∧ p ≠ q) := by
      constructor
      intro a b c hab hbc
      refine ⟨pathLeB_trans a b c hab.1 hbc.1, ?_⟩
      intro hac
      subst hac
      exact hab.2 (pathLeB_antisymm a b hab.1 hbc.1)
    have hpw := List.chain'_iff_pairwise.mp hchain
    constructor
    · exact hpw.imp (fun hx => hx.1)
    · exact hpw.imp (fun hx => hx.2)

/-- C7 witness: the sortedness and freedom from duplicates instantiated
on a concrete run naming one literal file. -/
theorem c7_witness :
    collect_files args7 fs7 = some ⟨[["a"]], [], []⟩ ∧
    (List.Pairwise (fun p q => pathLeB p q = true)
        ([[("a" : String)]] : List PathT) ∧
      ([[("a" : String)]] : List PathT).Nodup) :=
  ⟨by decide,
   c7_candidate_sorted_nodup args7 fs7 ⟨[["a"]], [], []⟩ (by decide)⟩
